import Mathlib

/-!
Verification of the fizzbuzztensor repository against its natural-language
specification.  The Python sources are shallowly embedded as Lean functions:
numpy integer arrays become `List Nat`, string arrays become `List String`,
and Python `int` arguments that may be negative become `Int`.  Array indexing
is `List.getD`; every index used by the embedded code is within bounds, so the
default value never matters.
-/

namespace FB

/-- Embeds `PATTERN` from `src/fizzbuzz.py`: the fundamental period-15
category vector. -/
def PATTERN : List Nat := [0, 0, 1, 0, 2, 1, 0, 0, 1, 2, 0, 1, 0, 0, 3]

/-- Embeds `DECODER` from `src/fizzbuzz.py`: category to output string. -/
def DECODER : List String := ["{}", "Fizz", "Buzz", "FizzBuzz"]

/-- Embeds `fizzbuzz(n)` from `src/fizzbuzz.py`.  `nums = arange(1, n+1)`
is empty when `n <= 0`; each number maps through `PATTERN[(num-1) % 15]`
and the decoder, with category 0 replaced by the decimal number. -/
def fizzbuzz (n : Int) : List String :=
  (List.range n.toNat).map (fun t =>
    let num := t + 1
    let c := PATTERN.getD ((num - 1) % 15) 0
    if c = 0 then toString num else DECODER.getD c (""))

/-- Embeds the category encoding inside `create_pattern` of
`src/fizzbuzz.py`: the dot product `div_matrix @ powers`, i.e. the sum over
divisor index `j` of `(1 if p mod d_j == 0 else 0) * 2^j`. -/
def category (divs : List Nat) (p : Nat) : Nat :=
  (divs.enum.map (fun jd => (if p % jd.2 = 0 then 1 else 0) * 2 ^ jd.1)).sum

/-- Embeds the decoder-entry construction inside `create_pattern` of
`src/fizzbuzz.py`: the labels of the active bits `(c >> j) & 1` of the
category, joined, or the placeholder when no bit is active. -/
def decodeCat (divisors : List (Nat × String)) (c : Nat) : String :=
  let labels := divisors.enum.filterMap
    (fun jd => if (c >>> jd.1) % 2 = 1 then some jd.2.2 else none)
  if labels = [] then "{}" else String.join labels

/-- Embeds `create_pattern(divisors)` from `src/fizzbuzz.py`.  The period is
`np.lcm.reduce` of the divisor values, which raises on the empty list
(modelled as `none`) and is the left fold of pairwise `lcm` otherwise; the
pattern maps positions `1..period` through `category`; the decoder has one
entry per category value below `2^k`. -/
def create_pattern (divisors : List (Nat × String)) :
    Option (List Nat × List String) :=
  match divisors.map Prod.fst with
  | [] => none
  | d :: ds =>
    let period := ds.foldl Nat.lcm d
    let pattern := (List.range period).map (fun t => category (d :: ds) (t + 1))
    let decoder := (List.range (2 ^ divisors.length)).map (decodeCat divisors)
    some (pattern, decoder)

end FB

namespace FBCompact

/-- Embeds `PATTERN_COMPACT` from `src/fizzbuzz_compact.py`: the 2x2 lookup
table indexed by the two divisibility flags. -/
def PATTERN_COMPACT : List (List Nat) := [[0, 2], [1, 3]]

/-- Embeds `DECODER` from `src/fizzbuzz_compact.py`. -/
def DECODER : List String := ["{}", "Fizz", "Buzz", "FizzBuzz"]

/-- Embeds `fizzbuzz(n)` from `src/fizzbuzz_compact.py`: binary divisibility
checks index the 2x2 matrix, and category 0 emits the number. -/
def fizzbuzz (n : Int) : List String :=
  (List.range n.toNat).map (fun t =>
    let num := t + 1
    let div_by_3 : Nat := if num % 3 = 0 then 1 else 0
    let div_by_5 : Nat := if num % 5 = 0 then 1 else 0
    let c := (PATTERN_COMPACT.getD div_by_3 []).getD div_by_5 0
    if c = 0 then toString num else DECODER.getD c (""))

end FBCompact

namespace DimRep

/-- Embeds `PATTERN_BINARY` from `src/dimensional_representations.py`: the
2x2 matrix indexed by the two divisibility flags. -/
def PATTERN_BINARY : List (List Nat) := [[0, 2], [1, 3]]

/-- Embeds `PATTERN_MODULAR` from `src/dimensional_representations.py`: the
3x5 matrix indexed by `n % 3` and `n % 5`. -/
def PATTERN_MODULAR : List (List Nat) :=
  [[3, 1, 1, 1, 1], [2, 0, 0, 0, 0], [2, 0, 0, 0, 0]]

/-- Embeds `PATTERN_VECTOR` from `src/dimensional_representations.py`. -/
def PATTERN_VECTOR : List Nat := [0, 0, 1, 0, 2, 1, 0, 0, 1, 2, 0, 1, 0, 0, 3]

/-- Embeds the local `decoder` array shared by the three representations in
`src/dimensional_representations.py`. -/
def decoder : List String := ["{}", "Fizz", "Buzz", "FizzBuzz"]

/-- Embeds `fizzbuzz_binary(n)` from `src/dimensional_representations.py`:
binary divisibility checks index the 2x2 matrix. -/
def fizzbuzz_binary (n : Int) : List String :=
  (List.range n.toNat).map (fun t =>
    let num := t + 1
    let div_by_3 : Nat := if num % 3 = 0 then 1 else 0
    let div_by_5 : Nat := if num % 5 = 0 then 1 else 0
    let c := (PATTERN_BINARY.getD div_by_3 []).getD div_by_5 0
    if c = 0 then toString num else decoder.getD c (""))

/-- Embeds `fizzbuzz_modular(n)` from `src/dimensional_representations.py`:
the 3x5 matrix is indexed by `num % 3` and `num % 5`. -/
def fizzbuzz_modular (n : Int) : List String :=
  (List.range n.toNat).map (fun t =>
    let num := t + 1
    let c := (PATTERN_MODULAR.getD (num % 3) []).getD (num % 5) 0
    if c = 0 then toString num else decoder.getD c (""))

/-- Embeds `fizzbuzz_vector(n)` from `src/dimensional_representations.py`:
the flat 15-element pattern indexed by `(num - 1) % 15`. -/
def fizzbuzz_vector (n : Int) : List String :=
  (List.range n.toNat).map (fun t =>
    let num := t + 1
    let c := PATTERN_VECTOR.getD ((num - 1) % 15) 0
    if c = 0 then toString num else decoder.getD c (""))

end DimRep

namespace Batched

/-- Embeds the local `decoder` array of `fizzbuzz_batched` in
`src/fizzbuzz_batched.py`. -/
def decoder : List String := ["{}", "Fizz", "Buzz", "FizzBuzz"]

/-- Embeds the string result of `fizzbuzz_batched(batch_size,
sequence_length, offset)` from `src/fizzbuzz_batched.py`: cell `(i, j)`
holds the number `offset + i*sequence_length + j + 1`, its category is the
divisibility bits of 3 and 5 weighted by the powers `[1, 2]`, and the decode
loop emits the number for category 0 and the decoder entry otherwise.  The
function also returns the divisibility tensor and the number grid; only the
string array is needed here. -/
def fizzbuzz_batched (batch_size sequence_length offset : Nat) :
    List (List String) :=
  (List.range batch_size).map (fun i =>
    (List.range sequence_length).map (fun j =>
      let num := offset + i * sequence_length + j + 1
      let cat := (if num % 3 = 0 then 1 else 0) * 1 +
        (if num % 5 = 0 then 1 else 0) * 2
      if cat = 0 then toString num else decoder.getD cat ("")))

end Batched

/-- Modelled from the spec: the repository has no standalone range-lookup
function (its `fizzbuzz(n)` is the special case `start = 1`); section 4 of
the spec defines `lookup` over `[start, start+count)` as
`category = categories[(i-1) mod period]`, emitting the decimal number for
the zero category and the decoder entry otherwise.  This is the unvalidated
core on natural-number arguments. -/
def lookupRun (categories : List Nat) (decoder : List String)
    (start count : Nat) : List String :=
  (List.range count).map (fun t =>
    let i := start + t
    let c := categories.getD ((i - 1) % categories.length) 0
    if c = 0 then toString i else decoder.getD c (""))

/-- Modelled from the spec: the validating `lookup` operation of section 4,
which the repository does not implement; it raises `InvalidRange` when
`start < 1` or `count < 0` and otherwise produces the `count` labels. -/
def lookup (categories : List Nat) (decoder : List String)
    (start count : Int) : Except String (List String) :=
  if start < 1 ∨ count < 0 then Except.error ("InvalidRange")
  else Except.ok (lookupRun categories decoder start.toNat count.toNat)

/-- A partition of `[start, start + counts.sum)` into contiguous sub-ranges
of the given lengths, each looked up independently; used to state the
batching-equivalence property of the spec. -/
def lookupPieces (categories : List Nat) (decoder : List String)
    (start : Nat) : List Nat → List (List String)
  | [] => []
  | c :: cs =>
    lookupRun categories decoder start c ::
      lookupPieces categories decoder (start + c) cs


/-- The 2x2 binary category of position `t+1` equals the pattern-vector
category: both are functions of `(t+1) mod 15` alone. -/
lemma binary_cat_eq_vector_cat (t : Nat) :
    (DimRep.PATTERN_BINARY.getD (if (t + 1) % 3 = 0 then 1 else 0) []).getD
        (if (t + 1) % 5 = 0 then 1 else 0) 0 =
      DimRep.PATTERN_VECTOR.getD ((t + 1 - 1) % 15) 0 := by
  have hlt : t % 15 < 15 := Nat.mod_lt _ (by norm_num)
  have h3 : (t + 1) % 3 = (t % 15 + 1) % 3 := by omega
  have h5 : (t + 1) % 5 = (t % 15 + 1) % 5 := by omega
  rw [Nat.add_sub_cancel, h3, h5]
  generalize t % 15 = r at hlt ⊢
  interval_cases r <;> decide

/-- The 3x5 modular category of position `t+1` equals the pattern-vector
category. -/
lemma modular_cat_eq_vector_cat (t : Nat) :
    (DimRep.PATTERN_MODULAR.getD ((t + 1) % 3) []).getD ((t + 1) % 5) 0 =
      DimRep.PATTERN_VECTOR.getD ((t + 1 - 1) % 15) 0 := by
  have hlt : t % 15 < 15 := Nat.mod_lt _ (by norm_num)
  have h3 : (t + 1) % 3 = (t % 15 + 1) % 3 := by omega
  have h5 : (t + 1) % 5 = (t % 15 + 1) % 5 := by omega
  rw [Nat.add_sub_cancel, h3, h5]
  generalize t % 15 = r at hlt ⊢
  interval_cases r <;> decide

/-- C5: for every n >= 1, the three fixed-divisor representations produce
identical output sequences, element by element. -/
theorem representations_agree (n : Int) (h : 1 ≤ n) :
    DimRep.fizzbuzz_binary n = DimRep.fizzbuzz_modular n ∧
    DimRep.fizzbuzz_modular n = DimRep.fizzbuzz_vector n := by
  have hbv : DimRep.fizzbuzz_binary n = DimRep.fizzbuzz_vector n := by
    unfold DimRep.fizzbuzz_binary DimRep.fizzbuzz_vector
    apply List.map_congr_left
    intro t ht
    simp only [binary_cat_eq_vector_cat t]
  have hmv : DimRep.fizzbuzz_modular n = DimRep.fizzbuzz_vector n := by
    unfold DimRep.fizzbuzz_modular DimRep.fizzbuzz_vector
    apply List.map_congr_left
    intro t ht
    simp only [modular_cat_eq_vector_cat t]
  exact ⟨hbv.trans hmv.symm, hmv⟩

/-- Witness for C5 at n = 15. -/
theorem representations_agree_witness :
    DimRep.fizzbuzz_binary 15 = DimRep.fizzbuzz_modular 15 ∧
    DimRep.fizzbuzz_modular 15 = DimRep.fizzbuzz_vector 15 :=
  representations_agree 15 (by decide)


/-- C1: for the divisor spec [(3, Fizz), (5, Buzz)], looking up positions 1
through 15 produces exactly the classic fifteen-element FizzBuzz sequence;
the repository's fixed `fizzbuzz` agrees. -/
theorem classic_lookup_1_15 :
    (FB.create_pattern [(3, "Fizz"), (5, "Buzz")]).map
        (fun pd => lookup pd.1 pd.2 1 15) =
      some (Except.ok ["1", "2", "Fizz", "4", "Buzz", "Fizz", "7", "8",
        "Fizz", "Buzz", "11", "Fizz", "13", "14", "FizzBuzz"]) ∧
    FB.fizzbuzz 15 = ["1", "2", "Fizz", "4", "Buzz", "Fizz", "7", "8",
      "Fizz", "Buzz", "11", "Fizz", "13", "14", "FizzBuzz"] := by
  constructor <;> rfl

/-- The left fold of pairwise lcm (the shape of `np.lcm.reduce`) computes the
least common multiple of the whole list, expressed as the right fold with
identity 1. -/
lemma foldl_lcm_eq_lcm_foldr (a : Nat) (ds : List Nat) :
    ds.foldl Nat.lcm a = Nat.lcm a (ds.foldr Nat.lcm 1) := by
  induction ds generalizing a with
  | nil => simp [Nat.lcm_one_right]
  | cons e tl ih =>
    simp only [List.foldl_cons, List.foldr_cons, ih (Nat.lcm a e), Nat.lcm_assoc]

/-- C2: for every divisor spec containing at least one positive divisor,
`create_pattern` produces a pattern whose length equals the least common
multiple of all divisors; in particular the spec
[(3, Fizz), (5, Buzz), (7, Bazz)] gives period 105. -/
theorem create_pattern_period_lcm (divisors : List (Nat × String))
    (h : ∃ d ∈ divisors.map Prod.fst, 0 < d) :
    (∃ pat dec, FB.create_pattern divisors = some (pat, dec) ∧
      pat.length = (divisors.map Prod.fst).foldr Nat.lcm 1) ∧
    (FB.create_pattern [(3, "Fizz"), (5, "Buzz"), (7, "Bazz")]).map
        (fun pd => pd.1.length) = some 105 := by
  constructor
  · obtain ⟨d0, hd0, -⟩ := h
    cases hdv : divisors.map Prod.fst with
    | nil => rw [hdv] at hd0; cases hd0
    | cons d ds =>
      refine ⟨(List.range (ds.foldl Nat.lcm d)).map
          (fun t => FB.category (d :: ds) (t + 1)),
        (List.range (2 ^ divisors.length)).map (FB.decodeCat divisors), ?_, ?_⟩
      · unfold FB.create_pattern
        rw [hdv]
      · rw [List.length_map, List.length_range, List.foldr_cons,
          foldl_lcm_eq_lcm_foldr]
  · rfl

/-- Witness for C2 at the concrete spec [(3, Fizz), (5, Buzz)]. -/
theorem create_pattern_period_lcm_witness :
    (∃ pat dec, FB.create_pattern [(3, "Fizz"), (5, "Buzz")] =
        some (pat, dec) ∧
      pat.length = ([(3, "Fizz"), (5, "Buzz")].map Prod.fst).foldr Nat.lcm 1) ∧
    (FB.create_pattern [(3, "Fizz"), (5, "Buzz"), (7, "Bazz")]).map
        (fun pd => pd.1.length) = some 105 :=
  create_pattern_period_lcm [(3, "Fizz"), (5, "Buzz")]
    ⟨3, by decide, by decide⟩

/-- Shifting the start index of an enumeration doubles every power-of-two
weight in the category sum. -/
lemma sum_enumFrom_succ (ds : List Nat) (p k : Nat) :
    ((ds.enumFrom (k + 1)).map
        (fun jd => (if p % jd.2 = 0 then 1 else 0) * 2 ^ jd.1)).sum =
      2 * ((ds.enumFrom k).map
        (fun jd => (if p % jd.2 = 0 then 1 else 0) * 2 ^ jd.1)).sum := by
  induction ds generalizing k with
  | nil => simp
  | cons e tl ih =>
    simp only [List.enumFrom_cons, List.map_cons, List.sum_cons, ih (k + 1),
      pow_succ]
    ring

/-- The category sum decomposes over the head divisor: the head contributes
the low bit and the tail contributes the remaining bits, doubled. -/
lemma category_cons (d : Nat) (ds : List Nat) (p : Nat) :
    FB.category (d :: ds) p =
      (if p % d = 0 then 1 else 0) + 2 * FB.category ds p := by
  unfold FB.category
  rw [List.enum_cons, List.map_cons, List.sum_cons]
  show (if p % d = 0 then 1 else 0) * 2 ^ 0 + _ = _
  rw [pow_zero, Nat.mul_one, sum_enumFrom_succ]
  rfl

/-- Bit `j` of the category of position `p` is set exactly when divisor `j`
divides `p`. -/
lemma category_testBit (divs : List Nat) (p j : Nat) (hj : j < divs.length) :
    (FB.category divs p).testBit j = true ↔ p % divs.getD j 1 = 0 := by
  induction divs generalizing j with
  | nil => cases hj
  | cons d ds ih =>
    rw [category_cons]
    cases j with
    | zero =>
      rw [Nat.testBit_zero, List.getD_cons_zero]
      by_cases hd : p % d = 0 <;>
        simp [hd, Nat.add_mul_mod_self_left, Nat.mul_mod_right]
    | succ j =>
      rw [Nat.testBit_succ, List.getD_cons_succ]
      have hdiv : ((if p % d = 0 then 1 else 0) + 2 * FB.category ds p) / 2 =
          FB.category ds p := by
        by_cases hd : p % d = 0 <;> simp [hd] <;> omega
      rw [hdiv]
      exact ih j (by simpa using hj)

/-- The form `create_pattern` takes on any spec whose divisor list is
`d :: ds`. -/
lemma create_pattern_eq (divisors : List (Nat × String)) (d : Nat)
    (ds : List Nat) (hdv : divisors.map Prod.fst = d :: ds) :
    FB.create_pattern divisors =
      some ((List.range (ds.foldl Nat.lcm d)).map
          (fun t => FB.category (d :: ds) (t + 1)),
        (List.range (2 ^ divisors.length)).map (FB.decodeCat divisors)) := by
  unfold FB.create_pattern
  rw [hdv]

/-- C3: for every valid divisor spec and every index `i` below the period,
bit `j` of `categories[i]` equals 1 iff `(i+1) mod divisors[j] == 0`, with
bit 0 corresponding to the first divisor in spec order. -/
theorem categories_bit_iff_divisible (divisors : List (Nat × String))
    (pat : List Nat) (dec : List String)
    (hvalid : ∀ d ∈ divisors.map Prod.fst, 0 < d)
    (hcp : FB.create_pattern divisors = some (pat, dec))
    (i j : Nat) (hi : i < pat.length) (hj : j < divisors.length) :
    (pat.getD i 0).testBit j = true ↔
      (i + 1) % ((divisors.map Prod.fst).getD j 1) = 0 := by
  cases hdv : divisors.map Prod.fst with
  | nil =>
    rw [FB.create_pattern, hdv] at hcp
    cases hcp
  | cons d ds =>
    rw [create_pattern_eq divisors d ds hdv] at hcp
    simp only [Option.some.injEq, Prod.mk.injEq] at hcp
    obtain ⟨hpat, -⟩ := hcp
    subst hpat
    rw [List.getD_eq_getElem _ _ hi, List.getElem_map, List.getElem_range]
    have hlen : divisors.length = (d :: ds).length := by
      rw [← hdv, List.length_map]
    exact category_testBit (d :: ds) (i + 1) j (hlen ▸ hj)

/-- Witness for C3 at the classic spec, index 2, bit 0 (position 3 is
divisible by 3). -/
theorem categories_bit_iff_divisible_witness :
    (([0, 0, 1, 0, 2, 1, 0, 0, 1, 2, 0, 1, 0, 0, 3] : List Nat).getD 2
        0).testBit 0 = true ↔
      (2 + 1) % (([(3, "Fizz"), (5, "Buzz")].map Prod.fst).getD 0 1) = 0 :=
  categories_bit_iff_divisible [(3, "Fizz"), (5, "Buzz")]
    [0, 0, 1, 0, 2, 1, 0, 0, 1, 2, 0, 1, 0, 0, 3]
    ["{}", "Fizz", "Buzz", "FizzBuzz"] (by decide) (by rfl) 2 0 (by decide)
    (by decide)

/-- The bit test the Python decoder loop performs, `(c >> j) & 1`, agrees
with `Nat.testBit`. -/
lemma shiftRight_mod_two_eq_testBit (c j : Nat) :
    ((c >>> j) % 2 = 1) ↔ c.testBit j = true := by
  rw [Nat.testBit_to_div_mod, Nat.shiftRight_eq_div_pow, decide_eq_true_eq]

/-- A nonzero category below `2^k` has a set bit below `k`. -/
lemma exists_testBit_lt (c k : Nat) (hc0 : 0 < c) (hck : c < 2 ^ k) :
    ∃ j, j < k ∧ c.testBit j = true := by
  by_contra hno
  push_neg at hno
  have hz : c = 0 := by
    apply Nat.eq_of_testBit_eq
    intro j
    rw [Nat.zero_testBit]
    by_cases hjk : j < k
    · exact Bool.eq_false_iff.mpr (fun ht => (hno j hjk) ht)
    · exact Nat.testBit_eq_false_of_lt
        (lt_of_lt_of_le hck (Nat.pow_le_pow_right (by omega) (by omega)))
  omega

/-- C4: for every nonempty divisor spec with `k` divisors, the decoder built
by `create_pattern` has exactly `2^k` entries; entry 0 is the placeholder,
and every entry `c > 0` is the concatenation, in spec order, of exactly the
labels whose bit is set in `c`; category 7 of the three-divisor spec decodes
to FizzBuzzBazz. -/
theorem decoder_entries (divisors : List (Nat × String))
    (pat : List Nat) (dec : List String) (hne : divisors ≠ [])
    (hcp : FB.create_pattern divisors = some (pat, dec)) :
    dec.length = 2 ^ divisors.length ∧
    dec.getD 0 ("") = "{}" ∧
    (∀ c, 0 < c → c < 2 ^ divisors.length →
      dec.getD c ("") = String.join (divisors.enum.filterMap
        (fun jd => if c.testBit jd.1 = true then some jd.2.2 else none))) ∧
    (FB.create_pattern [(3, "Fizz"), (5, "Buzz"), (7, "Bazz")]).map
        (fun pd => pd.2.getD 7 ("")) = some ("FizzBuzzBazz") := by
  cases hdv : divisors.map Prod.fst with
  | nil =>
    exact absurd (List.map_eq_nil.mp hdv) hne
  | cons d ds =>
    rw [create_pattern_eq divisors d ds hdv] at hcp
    simp only [Option.some.injEq, Prod.mk.injEq] at hcp
    obtain ⟨-, hdec⟩ := hcp
    subst hdec
    refine ⟨by simp, ?_, ?_, by rfl⟩
    · have h0 : (0 : Nat) < 2 ^ divisors.length := Nat.pos_pow_of_pos _ (by omega)
      rw [List.getD_eq_getElem _ _ (by simpa using h0), List.getElem_map,
        List.getElem_range]
      unfold FB.decodeCat
      have hnone : divisors.enum.filterMap
          (fun jd => if (0 >>> jd.1) % 2 = 1 then some jd.2.2 else none) = [] := by
        rw [List.filterMap_eq_nil]
        intro jd hjd
        simp [Nat.zero_shiftRight]
      simp only [hnone]
      rfl
    · intro c hc0 hck
      rw [List.getD_eq_getElem _ _ (by simpa using hck), List.getElem_map,
        List.getElem_range]
      unfold FB.decodeCat
      have hfun : (fun jd : Nat × (Nat × String) =>
            if (c >>> jd.1) % 2 = 1 then some jd.2.2 else none) =
          (fun jd : Nat × (Nat × String) =>
            if c.testBit jd.1 = true then some jd.2.2 else none) := by
        funext jd
        by_cases hb : c.testBit jd.1 = true
        · rw [if_pos ((shiftRight_mod_two_eq_testBit c jd.1).mpr hb), if_pos hb]
        · rw [if_neg (fun hm => hb ((shiftRight_mod_two_eq_testBit c jd.1).mp hm)),
            if_neg hb]
      rw [hfun]
      have hnonempty : divisors.enum.filterMap
          (fun jd : Nat × (Nat × String) =>
            if c.testBit jd.1 = true then some jd.2.2 else none) ≠ [] := by
        intro hnil
        rw [List.filterMap_eq_nil] at hnil
        obtain ⟨j, hjk, hbit⟩ := exists_testBit_lt c divisors.length hc0 hck
        have hj' : j < divisors.enum.length := by
          rw [List.enum_length]; exact hjk
        have hmem : (j, divisors[j]) ∈ divisors.enum := by
          have hget := List.getElem_mem hj'
          rwa [List.getElem_enum] at hget
        have := hnil _ hmem
        rw [if_pos hbit] at this
        cases this
      rw [if_neg hnonempty]

/-- Witness for C4 at the classic two-divisor spec: the decoder placeholder
entry. -/
theorem decoder_entries_witness :
    (["{}", "Fizz", "Buzz", "FizzBuzz"] : List String).getD 0 ("") = "{}" :=
  (decoder_entries [(3, "Fizz"), (5, "Buzz")]
    [0, 0, 1, 0, 2, 1, 0, 0, 1, 2, 0, 1, 0, 0, 3]
    ["{}", "Fizz", "Buzz", "FizzBuzz"] (by decide) (by rfl)).2.1

/-- C9: the hardcoded `PATTERN` and `DECODER` constants of `fizzbuzz.py` are
exactly what `create_pattern` produces for the spec [(3, Fizz), (5, Buzz)]. -/
theorem pattern_decoder_from_create_pattern :
    FB.create_pattern [(3, "Fizz"), (5, "Buzz")] =
        some (FB.PATTERN, FB.DECODER) ∧
    FB.PATTERN = [0, 0, 1, 0, 2, 1, 0, 0, 1, 2, 0, 1, 0, 0, 3] ∧
    FB.DECODER = ["{}", "Fizz", "Buzz", "FizzBuzz"] := by
  refine ⟨?_, rfl, rfl⟩
  rfl

/-- A lookup over a range of length `a + b` splits at `a`. -/
lemma lookupRun_add (cats : List Nat) (dec : List String) (start a b : Nat) :
    lookupRun cats dec start (a + b) =
      lookupRun cats dec start a ++ lookupRun cats dec (start + a) b := by
  unfold lookupRun
  rw [List.range_add, List.map_append, List.map_map]
  congr 1
  apply List.map_congr_left
  intro t ht
  simp only [Function.comp_apply]
  rw [← Nat.add_assoc]

/-- Concatenating the lookups of a contiguous partition reproduces the
single lookup over the whole range. -/
lemma lookupPieces_flatten (cats : List Nat) (dec : List String)
    (start : Nat) (counts : List Nat) :
    (lookupPieces cats dec start counts).flatten =
      lookupRun cats dec start counts.sum := by
  induction counts generalizing start with
  | nil => rfl
  | cons c cs ih =>
    show lookupRun cats dec start c ++ _ = _
    rw [List.sum_cons, lookupRun_add cats dec start c cs.sum, ih (start + c)]

/-- The divisibility-weighted category of the batched tensor equals the
period-15 pattern entry. -/
lemma batched_cat_eq_pattern (t : Nat) :
    (if (t + 1) % 3 = 0 then 1 else 0) * 1 +
        (if (t + 1) % 5 = 0 then 1 else 0) * 2 =
      FB.PATTERN.getD ((t + 1 - 1) % 15) 0 := by
  have hlt : t % 15 < 15 := Nat.mod_lt _ (by norm_num)
  have h3 : (t + 1) % 3 = (t % 15 + 1) % 3 := by omega
  have h5 : (t + 1) % 5 = (t % 15 + 1) % 5 := by omega
  rw [Nat.add_sub_cancel, h3, h5]
  generalize t % 15 = r at hlt ⊢
  interval_cases r <;> decide

/-- One row of the batched tensor is the lookup of its own sub-range. -/
lemma batched_row_eq_lookupRun (s offset i : Nat) :
    (List.range s).map (fun j =>
        let num := offset + i * s + j + 1
        let cat := (if num % 3 = 0 then 1 else 0) * 1 +
          (if num % 5 = 0 then 1 else 0) * 2
        if cat = 0 then toString num else Batched.decoder.getD cat ("")) =
      lookupRun FB.PATTERN FB.DECODER (offset + i * s + 1) s := by
  unfold lookupRun
  apply List.map_congr_left
  intro j hj
  have harg : offset + i * s + 1 + j = offset + i * s + j + 1 := by omega
  rw [harg]
  have hcat := batched_cat_eq_pattern (offset + i * s + j)
  rw [Nat.add_sub_cancel] at hcat
  show (if (if (offset + i * s + j + 1) % 3 = 0 then 1 else 0) * 1 +
      (if (offset + i * s + j + 1) % 5 = 0 then 1 else 0) * 2 = 0
    then toString (offset + i * s + j + 1)
    else Batched.decoder.getD ((if (offset + i * s + j + 1) % 3 = 0
      then 1 else 0) * 1 +
      (if (offset + i * s + j + 1) % 5 = 0 then 1 else 0) * 2) ("")) = _
  rw [hcat]
  rfl

/-- Concatenating the rows of the batched tensor in order reproduces the
single lookup over the whole range. -/
lemma batched_flatten (b s offset : Nat) :
    (Batched.fizzbuzz_batched b s offset).flatten =
      lookupRun FB.PATTERN FB.DECODER (offset + 1) (b * s) := by
  induction b with
  | zero =>
    rw [Nat.zero_mul]
    rfl
  | succ b ih =>
    unfold Batched.fizzbuzz_batched at ih ⊢
    rw [List.range_succ, List.map_append, List.flatten_append, ih]
    simp only [List.map_cons, List.map_nil, List.flatten_cons,
      List.flatten_nil, List.append_nil]
    rw [batched_row_eq_lookupRun s offset b]
    have hst : offset + b * s + 1 = offset + 1 + b * s := by omega
    rw [hst, ← lookupRun_add, Nat.succ_mul]

/-- C6: concatenating the lookup results of any contiguous partition of a
range equals the lookup over the whole range in one call; in particular the
batched tensor variant, whose batch `i` covers the sub-range of length
`sequence_length` starting at `offset + i*sequence_length + 1`, reproduces
the single-range result exactly when its rows are concatenated in order. -/
theorem lookup_batching (cats : List Nat) (dec : List String)
    (start : Nat) (hstart : 1 ≤ start) (counts : List Nat)
    (b s offset : Nat) :
    (lookupPieces cats dec start counts).flatten =
      lookupRun cats dec start counts.sum ∧
    (Batched.fizzbuzz_batched b s offset).flatten =
      lookupRun FB.PATTERN FB.DECODER (offset + 1) (b * s) :=
  ⟨lookupPieces_flatten cats dec start counts, batched_flatten b s offset⟩

/-- Witness for C6: splitting positions 1..15 as 6 + 9 for the classic
table, together with 3 batches of 5. -/
theorem lookup_batching_witness :
    (lookupPieces FB.PATTERN FB.DECODER 1 [6, 9]).flatten =
      lookupRun FB.PATTERN FB.DECODER 1 ([6, 9] : List Nat).sum ∧
    (Batched.fizzbuzz_batched 3 5 0).flatten =
      lookupRun FB.PATTERN FB.DECODER (0 + 1) (3 * 5) :=
  lookup_batching FB.PATTERN FB.DECODER 1 (by decide) [6, 9] 3 5 0

/-- C7 counterexample: for the valid classic spec, whose period is 15, the
lookup result at position 1 is the number string 1 while the result at
position 1 + 15 = 16 is the number string 16, so the results differ. -/
theorem lookup_not_periodic_at_one :
    (FB.create_pattern [(3, "Fizz"), (5, "Buzz")]).map
        (fun pd => (lookupRun pd.1 pd.2 1 1, lookupRun pd.1 pd.2 16 1,
          pd.1.length)) =
      some (["1"], ["16"], 15) ∧ (["1"] : List String) ≠ ["16"] := by
  constructor
  · rfl
  · decide

/-- C7 amended: for every valid divisor spec and every position i >= 1, the
category looked up at position i equals the category at position
i + period; consequently the lookup results agree at every position whose
category is nonzero (a zero-category position emits its own number, so its
string differs from the one a period later). -/
theorem lookup_periodic_categories (divisors : List (Nat × String))
    (pat : List Nat) (dec : List String)
    (hvalid : ∀ d ∈ divisors.map Prod.fst, 0 < d)
    (hcp : FB.create_pattern divisors = some (pat, dec))
    (i : Nat) (hi : 1 ≤ i) :
    pat.getD ((i - 1) % pat.length) 0 =
      pat.getD ((i + pat.length - 1) % pat.length) 0 ∧
    (pat.getD ((i - 1) % pat.length) 0 ≠ 0 →
      lookupRun pat dec i 1 = lookupRun pat dec (i + pat.length) 1) := by
  have h1 : i + pat.length - 1 = (i - 1) + pat.length := by omega
  have hmod : (i + pat.length - 1) % pat.length = (i - 1) % pat.length := by
    rw [h1, Nat.add_mod_right]
  refine ⟨by rw [hmod], fun hne => ?_⟩
  unfold lookupRun
  have hr1 : List.range 1 = [0] := rfl
  simp only [hr1, List.map_cons, List.map_nil, Nat.add_zero]
  rw [hmod, if_neg hne, if_neg hne]

/-- Witness for C7 amended at the classic table and position 3 (category
1, a Fizz position). -/
theorem lookup_periodic_categories_witness :
    ([0, 0, 1, 0, 2, 1, 0, 0, 1, 2, 0, 1, 0, 0, 3] : List Nat).getD
        ((3 - 1) % 15) 0 =
      ([0, 0, 1, 0, 2, 1, 0, 0, 1, 2, 0, 1, 0, 0, 3] : List Nat).getD
        ((3 + 15 - 1) % 15) 0 ∧
    lookupRun [0, 0, 1, 0, 2, 1, 0, 0, 1, 2, 0, 1, 0, 0, 3]
        ["{}", "Fizz", "Buzz", "FizzBuzz"] 3 1 =
      lookupRun [0, 0, 1, 0, 2, 1, 0, 0, 1, 2, 0, 1, 0, 0, 3]
        ["{}", "Fizz", "Buzz", "FizzBuzz"] (3 + 15) 1 := by
  have h := lookup_periodic_categories [(3, "Fizz"), (5, "Buzz")]
    [0, 0, 1, 0, 2, 1, 0, 0, 1, 2, 0, 1, 0, 0, 3]
    ["{}", "Fizz", "Buzz", "FizzBuzz"] (by decide) (by rfl) 3 (by decide)
  exact ⟨h.1, h.2 (by decide)⟩

/-- C8 counterexample: `create_pattern` applied to a spec containing the
non-positive divisor 0 raises nothing and returns an empty pattern with a
two-entry decoder, and the repository lookup `fizzbuzz` applied to the
negative count -1 raises nothing and returns the empty sequence. -/
theorem no_invalid_spec_error :
    FB.create_pattern [(0, "Zap")] = some ([], ["{}", "Zap"]) ∧
    FB.fizzbuzz (-1) = [] := by
  exact ⟨rfl, rfl⟩

/-- C8 amended: the source performs no input validation: `create_pattern`
produces a result for every nonempty spec, including specs with
non-positive divisors, and errors only on the empty spec (where the LCM
reduction has no elements); the repository lookup `fizzbuzz` returns the
empty sequence without error for every negative count; only the
spec-modelled `lookup` raises `InvalidRange` for `start < 1` or
`count < 0`. -/
theorem validation_behavior :
    (∀ divisors : List (Nat × String),
      (FB.create_pattern divisors).isSome = true ↔ divisors ≠ []) ∧
    (∀ n : Int, n < 0 → FB.fizzbuzz n = []) ∧
    (∀ (cats : List Nat) (dec : List String) (start count : Int),
      start < 1 ∨ count < 0 →
      lookup cats dec start count = Except.error ("InvalidRange")) := by
  refine ⟨fun divisors => ?_, fun n hn => ?_, fun cats dec start count h => ?_⟩
  · cases divisors with
    | nil => simp [FB.create_pattern]
    | cons p ps =>
      rw [create_pattern_eq (p :: ps) p.1 (ps.map Prod.fst) (by simp)]
      simp
  · unfold FB.fizzbuzz
    rw [Int.toNat_of_nonpos (le_of_lt hn)]
    rfl
  · unfold lookup
    rw [if_pos h]

/-- Witness for C8 amended at a zero divisor, count -2, and an invalid
range. -/
theorem validation_behavior_witness :
    (FB.create_pattern [(0, "Zap")]).isSome = true ∧
    FB.fizzbuzz (-2) = [] ∧
    lookup [0] ["{}"] 1 (-1) = Except.error ("InvalidRange") :=
  ⟨(validation_behavior.1 [(0, "Zap")]).mpr (by decide),
   validation_behavior.2.1 (-2) (by decide),
   validation_behavior.2.2 [0] ["{}"] 1 (-1) (Or.inr (by decide))⟩

/-- C10: for every integer `n <= 0` both fixed lookups return the empty
sequence without error, and for every `n` the result has exactly
`n.toNat` elements (so exactly n elements when n >= 1); the embedded
functions are total, so no integer input fails. -/
theorem fizzbuzz_total_length (n : Int) :
    (n ≤ 0 → FB.fizzbuzz n = [] ∧ FBCompact.fizzbuzz n = []) ∧
    ((FB.fizzbuzz n).length = n.toNat ∧
      (FBCompact.fizzbuzz n).length = n.toNat) := by
  constructor
  · intro hn
    unfold FB.fizzbuzz FBCompact.fizzbuzz
    rw [Int.toNat_of_nonpos hn]
    exact ⟨rfl, rfl⟩
  · unfold FB.fizzbuzz FBCompact.fizzbuzz
    constructor <;> rw [List.length_map, List.length_range]

/-- Witness for C10 at n = -1 and n = 3. -/
theorem fizzbuzz_total_length_witness :
    (FB.fizzbuzz (-1) = [] ∧ FBCompact.fizzbuzz (-1) = []) ∧
    ((FB.fizzbuzz 3).length = (3 : Int).toNat ∧
      (FBCompact.fizzbuzz 3).length = (3 : Int).toNat) :=
  ⟨(fizzbuzz_total_length (-1)).1 (by decide), (fizzbuzz_total_length 3).2⟩
